import Mathlib

/-!
# requests.hpp — percent codec, buffer accumulator and `get`

A shallow embedding of `src/requests.hpp` (namespace `requests`).

* A C++ `std::string` / `char` buffer is a list of byte values (`Nat`, each below 256);
  `(unsigned char)` casts and stores into a `char` are written `% 256`.
* `size_t` arithmetic is `Nat` arithmetic followed by `% 2 ^ 64`.
* `assert` is compiled in: a failed assertion is an outcome of its own, not a returned string.
* `isalnum` is taken in the "C" locale (ASCII letters and digits).
* The transfer engine (libcurl) is not part of the repository: everything it decides
  (whether the handle could be created, which chunks it delivers, whether `realloc` succeeds,
  the result code, the status code, the elapsed time, the error text) is an explicit input.
-/

set_option autoImplicit false

namespace requests

/-- A byte string: the contents of a `std::string`, one `Nat` below 256 per `char`. -/
abbrev Bytes := List Nat

/-- The bytes of an ASCII string literal. -/
def ascii (s : String) : Bytes := s.toList.map Char.toNat

/-! ## Percent codec -/

/-- `isalnum((unsigned char) c)` of the C library, in the "C" locale: the ASCII letters and
digits, which is how the specification reads it. -/
def isalnum (c : Nat) : Bool :=
  (48 ≤ c && c ≤ 57) || (65 ≤ c && c ≤ 90) || (97 ≤ c && c ≤ 122)

/-- `to_hex`: `x > 9 ? x + 55 : x + 48`, returned as `unsigned char`. -/
def to_hex (x : Nat) : Nat :=
  (if x > 9 then x + 55 else x + 48) % 256

/-- `from_hex`: `none` is the `assert(0)` branch. The three ranges are the source's:
`'A'..'Z'`, `'a'..'z'`, `'0'..'9'`. -/
def from_hex (x : Nat) : Option Nat :=
  if x ≥ 65 ∧ x ≤ 90 then some ((x - 65 + 10) % 256)
  else if x ≥ 97 ∧ x ≤ 122 then some ((x - 97 + 10) % 256)
  else if x ≥ 48 ∧ x ≤ 57 then some ((x - 48) % 256)
  else none

/-- The pass-through test of `url_encode`: `isalnum` or one of `: / ? = - _ . ~`. -/
def url_encode_keeps (c : Nat) : Bool :=
  isalnum (c % 256) || c == 58 || c == 47 || c == 63 || c == 61 || c == 45 || c == 95 ||
    c == 46 || c == 126

/-- One iteration of the `url_encode` loop: what is appended to `strTemp` for `str[i] = c`. -/
def url_encode_step (strTemp : Bytes) (c : Nat) : Bytes :=
  if url_encode_keeps c then strTemp ++ [c]
  else if c = 32 then strTemp ++ [43]
  else (strTemp ++ [37]) ++ [to_hex ((c % 256) >>> 4)] ++ [to_hex ((c % 256) % 16)]

/-- `url_encode`: the loop visits `str[0] .. str[length-1]` in order, starting from the empty
`strTemp`. -/
def url_encode (str : Bytes) : Bytes :=
  str.foldl url_encode_step []

/-- How a call of `url_decode` ends. -/
inductive Outcome where
  | returned (s : Bytes)
  | assertion_failed
  | out_of_fuel
  deriving DecidableEq, Repr

/-- The `for (i = 0; i < length; i++)` loop of `url_decode`, with the index `i` and the
accumulator `strTemp` explicit. `fuel` bounds the number of iterations. -/
def url_decode_loop (str : Bytes) : Nat → Nat → Bytes → Outcome
  | 0, _, _ => Outcome.out_of_fuel
  | fuel + 1, i, strTemp =>
    if i < str.length then
      if str.getD i 0 = 43 then url_decode_loop str fuel (i + 1) (strTemp ++ [32])
      else if str.getD i 0 = 37 then
        if i + 2 < str.length then
          match from_hex (str.getD (i + 1) 0 % 256) with
          | none => Outcome.assertion_failed
          | some high =>
            match from_hex (str.getD (i + 2) 0 % 256) with
            | none => Outcome.assertion_failed
            | some low => url_decode_loop str fuel (i + 2 + 1) (strTemp ++ [(high * 16 + low) % 256])
        else Outcome.assertion_failed
      else url_decode_loop str fuel (i + 1) (strTemp ++ [str.getD i 0])
    else Outcome.returned strTemp

/-- `url_decode`: the loop started at `i = 0` with an empty `strTemp`. Every iteration
advances `i`, so `length + 1` iterations always suffice (`url_decode_loop_eq`). -/
def url_decode (str : Bytes) : Outcome :=
  url_decode_loop str (str.length + 1) 0 []

/-- What the loop of `url_decode` appends to `strTemp` when its index stands at the first
byte of `rest`, the part of `str` not yet read; `none` when an assertion fails. An auxiliary
view of `url_decode_loop`, related to it by `url_decode_loop_eq`. -/
def decode_suffix : Bytes → Option Bytes
  | [] => some []
  | c :: rest =>
    if c = 43 then (decode_suffix rest).map (fun r => 32 :: r)
    else if c = 37 then
      match rest with
      | x :: y :: rest' =>
        match from_hex (x % 256), from_hex (y % 256) with
        | some high, some low => (decode_suffix rest').map (fun r => (high * 16 + low) % 256 :: r)
        | _, _ => none
      | _ => none
    else (decode_suffix rest).map (fun r => c :: r)

/-- The outcome of the loop once the rest of the input has been processed. -/
def finish (strTemp : Bytes) : Option Bytes → Outcome
  | some r => Outcome.returned (strTemp ++ r)
  | none => Outcome.assertion_failed

/-! ## Buffer accumulator -/

/-- `Buffer`: `data` is `none` for a null pointer and otherwise the bytes of the heap block it
points to (the length of the list is the allocated size); `size` is the `size` field. -/
structure Buffer where
  data : Option Bytes
  size : Nat
  deriving DecidableEq, Repr

/-- Number of values of `size_t`. -/
def size_t_range : Nat := 2 ^ 64

/-- A successful `realloc(old, n)`: a block of `n` bytes that starts with the bytes of the old
block (as many as fit); the bytes beyond them are indeterminate and read from `junk`. -/
def realloc_block (old : Option Bytes) (n : Nat) (junk : Nat → Nat) : Bytes :=
  (List.range n).map (fun i => (old.getD []).getD i (junk i))

/-- `memcpy(&block[off], src, count)` for a copy that lies inside `block` and `src`. -/
def memcpy_at (block : Bytes) (off : Nat) (src : Bytes) (count : Nat) : Bytes :=
  block.take off ++ src.take count ++ block.drop (off + count)

/-- `write_cb(data, size, nmemb, user_data)`: the returned value and the buffer afterwards.
`alloc` says what `realloc` does in this call: `none` when it returns a null pointer,
`some junk` when it succeeds (with `junk` the indeterminate new bytes). -/
def write_cb (data : Bytes) (size nmemb : Nat) (buf : Buffer) (alloc : Option (Nat → Nat)) :
    Nat × Buffer :=
  let real_size := (size * nmemb) % size_t_range
  match alloc with
  | none => (0, buf)
  | some junk =>
    let ptr := realloc_block buf.data ((buf.size + real_size + 1) % size_t_range) junk
    let copied := memcpy_at ptr buf.size data real_size
    let size' := (buf.size + real_size) % size_t_range
    (real_size, { data := some (copied.set size' 0), size := size' })

/-! ## `get` -/

/-- What a reader of a NUL-terminated `char *` sees of a buffer: the bytes before the first
zero byte. This is `s.c_str()` handed to a C interface, and `string(p)` built from a
`char *`. -/
def c_str (s : Bytes) : Bytes := s.takeWhile (fun b => b != 0)

/-- `class Response`; `elapsed` is the `double`, which is only ever 0 or the engine's value. -/
structure Response where
  url : Bytes
  status_code : Int
  reason : Bytes
  content : Bytes
  elapsed : Rat
  deriving DecidableEq, Repr

/-- The constructor `Response(url, status_code = -1)`: `elapsed(0)`, empty strings. -/
def Response.init (url : Bytes) : Response :=
  { url := url, status_code := -1, reason := [], content := [], elapsed := 0 }

/-- One call of the output callback made by the engine during `curl_easy_perform`: the bytes
at `data`, the `size` and `nmemb` arguments, and what `realloc` does during the call. -/
structure Delivery where
  data : Bytes
  size : Nat
  nmemb : Nat
  alloc : Option (Nat → Nat)

/-- Everything the transfer engine decides during one call of `get`. -/
structure Engine where
  /-- Whether `curl_easy_init` returns a handle. -/
  init_ok : Bool
  /-- The calls of the output callback during `curl_easy_perform`, in order. -/
  deliveries : List Delivery
  /-- The `CURLcode` returned by `curl_easy_perform`; `CURLE_OK` is 0. -/
  code : Nat
  /-- The value stored for `CURLINFO_RESPONSE_CODE`. -/
  response_code : Int
  /-- The value stored for `CURLINFO_TOTAL_TIME`. -/
  total_time : Rat
  /-- The text `curl_easy_strerror` gives for a code. -/
  strerror : Nat → Bytes

/-- The calls `get` makes on the engine after `curl_easy_init`, with the data handed over. -/
inductive EngineCall where
  | setopt_url (url : Bytes)
  | setopt_writefunction
  | setopt_writedata
  | setopt_verbose (flag : Bool)
  | setopt_httpheader (lines : List Bytes)
  | setopt_cookielist (cookie : Bytes)
  | perform
  | getinfo_response_code
  | getinfo_total_time
  | cleanup
  deriving DecidableEq, Repr

/-- `curl_slist_append(list, str)`: the list with a copy of the C string `str` at its end. -/
def curl_slist_append (list : List Bytes) (str : Bytes) : List Bytes :=
  list ++ [c_str str]

/-- The header loop of `get`: `headers` is the map in iteration order; each entry gives
`item = first + ":" + second`, appended as `item.c_str()`. -/
def header_lines (headers : List (Bytes × Bytes)) : List Bytes :=
  headers.foldl (fun headers_ls iter => curl_slist_append headers_ls (iter.1 ++ ascii ":" ++ iter.2))
    []

/-- The buffer after the engine has made its callback calls, `write_cb` with `&chunk` as
`user_data`, starting from `chunk`. -/
def run_callbacks (deliveries : List Delivery) (chunk : Buffer) : Buffer :=
  deliveries.foldl (fun buf d => (write_cb d.data d.size d.nmemb buf d.alloc).2) chunk

/-- `get(url, headers, cookie)`: the returned `Response` and the calls made on the engine. -/
def get (e : Engine) (url : Bytes) (headers : List (Bytes × Bytes)) (cookie : Bytes) :
    Response × List EngineCall :=
  let resp := Response.init url
  if e.init_ok = false then
    ({ resp with reason := ascii "failed initialize curl." }, [])
  else
    let chunk : Buffer := { data := none, size := 0 }
    let configure :=
      [EngineCall.setopt_url (c_str (url_encode url)), EngineCall.setopt_writefunction,
        EngineCall.setopt_writedata, EngineCall.setopt_verbose false,
        EngineCall.setopt_httpheader (header_lines headers)]
        ++ (if cookie ≠ [] then [EngineCall.setopt_cookielist (c_str cookie)] else [])
    let chunk := run_callbacks e.deliveries chunk
    let resp := { resp with status_code := e.response_code, elapsed := e.total_time }
    let resp := if e.code ≠ 0 then { resp with reason := e.strerror e.code } else resp
    let resp :=
      match chunk.data with
      | some block => { resp with content := c_str block }
      | none => resp
    (resp, configure ++ [EngineCall.perform, EngineCall.getinfo_response_code,
      EngineCall.getinfo_total_time, EngineCall.cleanup])

/-- A delivery of `data` as `data.length` items of size 1 during which `realloc` succeeds and
leaves zero bytes where the new block is indeterminate. -/
def Delivery.of_bytes (data : Bytes) : Delivery :=
  { data := data, size := 1, nmemb := data.length, alloc := some (fun _ => 0) }

/-- An engine that got its handle, delivered `chunks` and reported success with status 200. -/
def Engine.success (chunks : List Bytes) : Engine :=
  { init_ok := true, deliveries := chunks.map Delivery.of_bytes, code := 0,
    response_code := 200, total_time := 0, strerror := fun _ => ascii "error" }

/-- An engine whose `curl_easy_init` fails. -/
def Engine.no_handle : Engine :=
  { init_ok := false, deliveries := [], code := 0, response_code := 0, total_time := 0,
    strerror := fun _ => ascii "error" }

/-- A buffer holds the bytes `b`: `size` is their number and the block starts with them. -/
def Buffer.holds (buf : Buffer) (b : Bytes) : Prop :=
  buf.size = b.length ∧ (buf.data.getD []).take b.length = b

instance (buf : Buffer) (b : Bytes) : Decidable (buf.holds b) := by
  unfold Buffer.holds
  infer_instance

/-! ## The codec as the specification words it -/

/-- The pass-through characters the specification lists: ASCII letters and digits and the
literal set `: / ? = - _ . ~`. -/
def unreserved_chars : Bytes :=
  ascii "ABCDEFGHIJKLMNOPQRSTUVWXYZabcdefghijklmnopqrstuvwxyz0123456789:/?=-_.~"

/-- A byte is unreserved when it is one of `unreserved_chars`. -/
def is_unreserved (b : Nat) : Bool := decide (b ∈ unreserved_chars)

/-- The uppercase hexadecimal digit that writes a value below 16. -/
def upper_hex_digit (d : Nat) : Nat := (ascii "0123456789ABCDEF").getD d 0

/-- The specification's encoding of one byte. -/
def encode_byte_spec (b : Nat) : Bytes :=
  if is_unreserved b then [b]
  else if b = 32 then [43]
  else [37, upper_hex_digit (b / 16), upper_hex_digit (b % 16)]

/-- The specification's `encode`: the encodings of the bytes of `s`, concatenated in order. -/
def url_encode_spec (s : Bytes) : Bytes := s.flatMap encode_byte_spec

/-- A hexadecimal digit: one of `0-9`, `A-F`, `a-f`. -/
def is_hex_digit (c : Nat) : Bool := decide (c ∈ ascii "0123456789ABCDEFabcdef")

/-- The value of a hexadecimal digit, upper and lower case alike (16 for any other byte). -/
def hex_digit_value (c : Nat) : Nat :=
  min ((ascii "0123456789ABCDEF").indexOf c) ((ascii "0123456789abcdef").indexOf c)

/-- Every `%` that starts an escape is followed by two hexadecimal digits. -/
def escapes_well_formed : Bytes → Bool
  | [] => true
  | c :: rest =>
    if c = 37 then
      match rest with
      | x :: y :: rest' => is_hex_digit x && is_hex_digit y && escapes_well_formed rest'
      | _ => false
    else escapes_well_formed rest

/-- The specification's `decode`: `+` becomes a space, `%XY` becomes the byte
`16 * value X + value Y`, every other byte is copied. (A `%` with fewer than two bytes after
it starts no escape; the specification gives such input no decoding, and it is left as it
is here.) -/
def url_decode_spec : Bytes → Bytes
  | [] => []
  | c :: rest =>
    if c = 43 then 32 :: url_decode_spec rest
    else if c = 37 then
      match rest with
      | x :: y :: rest' => (16 * hex_digit_value x + hex_digit_value y) :: url_decode_spec rest'
      | _ => c :: rest
    else c :: url_decode_spec rest

/-! # Theorems -/

/-! ## The decoding loop and its list view -/

theorem finish_map_cons (acc : Bytes) (b : Nat) (o : Option Bytes) :
    finish acc (o.map (fun r => b :: r)) = finish (acc ++ [b]) o := by
  cases o <;> simp [finish]

theorem decode_suffix_plus (rest : Bytes) :
    decode_suffix (43 :: rest) = (decode_suffix rest).map (fun r => 32 :: r) := by
  rcases rest with _ | ⟨x, _ | ⟨y, r⟩⟩ <;> simp [decode_suffix]

theorem decode_suffix_plain (c : Nat) (rest : Bytes) (h43 : c ≠ 43) (h37 : c ≠ 37) :
    decode_suffix (c :: rest) = (decode_suffix rest).map (fun r => c :: r) := by
  rcases rest with _ | ⟨x, _ | ⟨y, r⟩⟩ <;> simp [decode_suffix, h43, h37]

theorem decode_suffix_percent (x y : Nat) (rest : Bytes) :
    decode_suffix (37 :: x :: y :: rest) =
      match from_hex (x % 256), from_hex (y % 256) with
      | some high, some low => (decode_suffix rest).map (fun r => (high * 16 + low) % 256 :: r)
      | _, _ => none := by
  simp [decode_suffix]

theorem decode_suffix_percent_nil : decode_suffix [37] = none := by
  simp [decode_suffix]

theorem decode_suffix_percent_one (x : Nat) : decode_suffix [37, x] = none := by
  simp [decode_suffix]

theorem getD_append_length (pre : Bytes) (c : Nat) (rest : Bytes) :
    (pre ++ c :: rest).getD pre.length 0 = c := by
  induction pre with
  | nil => rfl
  | cons p pre ih => simpa using ih

theorem getD_append_length_succ (pre : Bytes) (c x : Nat) (rest : Bytes) :
    (pre ++ c :: x :: rest).getD (pre.length + 1) 0 = x := by
  have := getD_append_length (pre ++ [c]) x rest
  simpa using this

theorem getD_append_length_succ_succ (pre : Bytes) (c x y : Nat) (rest : Bytes) :
    (pre ++ c :: x :: y :: rest).getD (pre.length + 2) 0 = y := by
  have := getD_append_length (pre ++ [c, x]) y rest
  simpa using this

theorem url_decode_loop_append (fuel : Nat) : ∀ (pre suf acc : Bytes), suf.length < fuel →
    url_decode_loop (pre ++ suf) fuel pre.length acc = finish acc (decode_suffix suf) := by
  induction fuel with
  | zero => intro pre suf acc h; omega
  | succ fuel ih =>
    intro pre suf acc h
    cases suf with
    | nil => simp [url_decode_loop, decode_suffix, finish]
    | cons c rest =>
      have hlen : pre.length < (pre ++ c :: rest).length := by simp
      have hstep : ∀ a, url_decode_loop (pre ++ c :: rest) fuel (pre.length + 1) a =
          finish a (decode_suffix rest) := by
        intro a
        have := ih (pre ++ [c]) rest a (by simp at h; omega)
        simpa using this
      rw [url_decode_loop, if_pos hlen, getD_append_length]
      by_cases h43 : c = 43
      · subst h43
        rw [if_pos rfl, decode_suffix_plus, finish_map_cons, hstep]
      · rw [if_neg h43]
        by_cases h37 : c = 37
        · subst h37
          rw [if_pos rfl]
          match rest, h, hstep with
          | [], _, _ => simp [decode_suffix_percent_nil, finish]
          | [x], _, _ => simp [decode_suffix_percent_one, finish]
          | x :: y :: rest', h, _ =>
            have h2 : pre.length + 2 < (pre ++ 37 :: x :: y :: rest').length := by simp
            have hrec : ∀ a, url_decode_loop (pre ++ 37 :: x :: y :: rest') fuel
                (pre.length + 2 + 1) a = finish a (decode_suffix rest') := by
              intro a
              have := ih (pre ++ [37, x, y]) rest' a (by simp at h; omega)
              simpa using this
            rw [if_pos h2, getD_append_length_succ, getD_append_length_succ_succ]
            rw [decode_suffix_percent]
            cases hx : from_hex (x % 256) with
            | none => simp [finish]
            | some high =>
              cases hy : from_hex (y % 256) with
              | none => simp [finish]
              | some low => simp only [hrec, finish_map_cons]
        · rw [if_neg h37, decode_suffix_plain c rest h43 h37, finish_map_cons, hstep]

/-- The loop of `url_decode` never runs out of fuel: the call ends as the list view says. -/
theorem url_decode_eq (str : Bytes) : url_decode str = finish [] (decode_suffix str) := by
  have := url_decode_loop_append (str.length + 1) [] str [] (by omega)
  simpa [url_decode] using this

/-! ## The encoder and its specification -/

theorem foldl_url_encode_step (s : Bytes) : ∀ acc : Bytes,
    s.foldl url_encode_step acc = acc ++ s.flatMap (url_encode_step []) := by
  induction s with
  | nil => intro acc; simp
  | cons c s ih =>
    intro acc
    rw [List.foldl_cons, ih, List.flatMap_cons, ← List.append_assoc]
    congr 1
    unfold url_encode_step
    split_ifs <;> simp

theorem url_encode_eq_flatMap (s : Bytes) : url_encode s = s.flatMap (url_encode_step []) := by
  simp [url_encode, foldl_url_encode_step]

set_option maxRecDepth 100000 in
theorem url_encode_step_eq_spec : ∀ b < 256, url_encode_step [] b = encode_byte_spec b := by
  decide

set_option maxRecDepth 100000 in
theorem unreserved_chars_kept :
    ∀ c ∈ unreserved_chars, url_encode_step [] c = [c] ∧ c ≠ 43 ∧ c ≠ 37 := by
  decide

theorem is_unreserved_kept (c : Nat) (h : is_unreserved c = true) :
    url_encode_step [] c = [c] ∧ c ≠ 43 ∧ c ≠ 37 :=
  unreserved_chars_kept c (by simpa [is_unreserved] using h)

theorem flatMap_url_encode_step_unreserved (s : Bytes)
    (h : ∀ c ∈ s, is_unreserved c = true) : s.flatMap (url_encode_step []) = s := by
  induction s with
  | nil => rfl
  | cons c s ih =>
    rw [List.flatMap_cons, (is_unreserved_kept c (h c (by simp))).1,
      ih (fun d hd => h d (by simp [hd]))]
    rfl

theorem decode_suffix_unreserved (s : Bytes) (h : ∀ c ∈ s, is_unreserved c = true) :
    decode_suffix s = some s := by
  induction s with
  | nil => rfl
  | cons c s ih =>
    have hc := is_unreserved_kept c (h c (by simp))
    rw [decode_suffix_plain c s hc.2.1 hc.2.2, ih (fun d hd => h d (by simp [hd]))]
    rfl

/-- C1: for every string `s` whose characters are all unreserved (ASCII alphanumeric or one
of `: / ? = - _ . ~`), `url_decode (url_encode s)` returns, and what it returns is `s`. -/
theorem url_decode_url_encode_unreserved (s : Bytes) (h : ∀ c ∈ s, is_unreserved c = true) :
    url_decode (url_encode s) = Outcome.returned s := by
  rw [url_encode_eq_flatMap, flatMap_url_encode_step_unreserved s h, url_decode_eq,
    decode_suffix_unreserved s h]
  rfl

theorem url_decode_url_encode_unreserved_witness :
    (∀ c ∈ ascii "http://a.b/c?d=e_f-g~9", is_unreserved c = true) ∧
      url_decode (url_encode (ascii "http://a.b/c?d=e_f-g~9")) =
        Outcome.returned (ascii "http://a.b/c?d=e_f-g~9") :=
  ⟨by decide, url_decode_url_encode_unreserved _ (by decide)⟩

/-- C2: for every byte string `s`, `url_encode s` is the concatenation, over the bytes `b` of
`s` in order, of `b` itself when `b` is unreserved, of `+` when `b` is a space, and otherwise
of `%` followed by the uppercase hex digits of `b / 16` and of `b mod 16`; in particular
`url_encode " " = "+"` and `url_encode "a b#c" = "a+b%23c"`. -/
theorem url_encode_eq_spec (s : Bytes) (h : ∀ b ∈ s, b < 256) :
    url_encode s = url_encode_spec s ∧ url_encode (ascii " ") = ascii "+" ∧
      url_encode (ascii "a b#c") = ascii "a+b%23c" := by
  refine ⟨?_, by decide, by decide⟩
  rw [url_encode_eq_flatMap, url_encode_spec]
  induction s with
  | nil => rfl
  | cons c s ih =>
    rw [List.flatMap_cons, List.flatMap_cons, url_encode_step_eq_spec c (h c (by simp)),
      ih (fun d hd => h d (by simp [hd]))]

theorem url_encode_eq_spec_witness :
    (∀ b ∈ [97, 32, 37, 43, 0, 200, 255], b < 256) ∧
      url_encode [97, 32, 37, 43, 0, 200, 255] = url_encode_spec [97, 32, 37, 43, 0, 200, 255] :=
  ⟨by decide, (url_encode_eq_spec [97, 32, 37, 43, 0, 200, 255] (by decide)).1⟩

/-! ## The decoder and its specification -/

theorem hex_digit_from_hex : ∀ c ∈ ascii "0123456789ABCDEFabcdef",
    from_hex (c % 256) = some (hex_digit_value c) ∧ hex_digit_value c < 16 := by
  decide

theorem is_hex_digit_from_hex (c : Nat) (h : is_hex_digit c = true) :
    from_hex (c % 256) = some (hex_digit_value c) ∧ hex_digit_value c < 16 :=
  hex_digit_from_hex c (by simpa [is_hex_digit] using h)

theorem escapes_well_formed_plain (c : Nat) (rest : Bytes) (h37 : c ≠ 37) :
    escapes_well_formed (c :: rest) = escapes_well_formed rest := by
  rcases rest with _ | ⟨x, _ | ⟨y, r⟩⟩ <;> simp [escapes_well_formed, h37]

theorem escapes_well_formed_percent (rest : Bytes) (h : escapes_well_formed (37 :: rest) = true) :
    ∃ x y rest', rest = x :: y :: rest' ∧ is_hex_digit x = true ∧ is_hex_digit y = true ∧
      escapes_well_formed rest' = true := by
  rcases rest with _ | ⟨x, _ | ⟨y, r⟩⟩
  · simp [escapes_well_formed] at h
  · simp [escapes_well_formed] at h
  · refine ⟨x, y, r, rfl, ?_⟩
    simpa [escapes_well_formed, and_assoc] using h

theorem url_decode_spec_plus (rest : Bytes) :
    url_decode_spec (43 :: rest) = 32 :: url_decode_spec rest := by
  rcases rest with _ | ⟨x, _ | ⟨y, r⟩⟩ <;> simp [url_decode_spec]

theorem url_decode_spec_plain (c : Nat) (rest : Bytes) (h43 : c ≠ 43) (h37 : c ≠ 37) :
    url_decode_spec (c :: rest) = c :: url_decode_spec rest := by
  rcases rest with _ | ⟨x, _ | ⟨y, r⟩⟩ <;> simp [url_decode_spec, h43, h37]

theorem url_decode_spec_percent (x y : Nat) (rest : Bytes) :
    url_decode_spec (37 :: x :: y :: rest) =
      (16 * hex_digit_value x + hex_digit_value y) :: url_decode_spec rest := by
  simp [url_decode_spec]

theorem decode_suffix_well_formed (n : Nat) : ∀ s : Bytes, s.length ≤ n →
    escapes_well_formed s = true → decode_suffix s = some (url_decode_spec s) := by
  induction n with
  | zero =>
    intro s hn _
    have : s = [] := List.length_eq_zero.mp (by omega)
    subst this
    rfl
  | succ n ih =>
    intro s hn hwf
    cases s with
    | nil => rfl
    | cons c rest =>
      have hlen : rest.length ≤ n := by simpa using hn
      by_cases h43 : c = 43
      · subst h43
        rw [escapes_well_formed_plain 43 rest (by decide)] at hwf
        rw [decode_suffix_plus, url_decode_spec_plus, ih rest hlen hwf]
        rfl
      · by_cases h37 : c = 37
        · subst h37
          obtain ⟨x, y, rest', rfl, hx, hy, hrest⟩ := escapes_well_formed_percent rest hwf
          have hx' := is_hex_digit_from_hex x hx
          have hy' := is_hex_digit_from_hex y hy
          have hlen' : rest'.length ≤ n := by simp at hlen; omega
          rw [decode_suffix_percent, url_decode_spec_percent, hx'.1, hy'.1]
          simp only [ih rest' hlen' hrest, Option.map_some']
          have hsmall : (hex_digit_value x * 16 + hex_digit_value y) % 256 =
              16 * hex_digit_value x + hex_digit_value y := by
            have := hx'.2
            have := hy'.2
            omega
          rw [hsmall]
        · rw [escapes_well_formed_plain c rest h37] at hwf
          rw [decode_suffix_plain c rest h43 h37, url_decode_spec_plain c rest h43 h37,
            ih rest hlen hwf]
          rfl

/-- C3: for every string `s` in which each `%` that starts an escape is followed by two
hexadecimal digits `X`, `Y` (`0-9`, `A-F`, `a-f`, upper and lower case alike), `url_decode s`
returns `s` with every `+` replaced by a space, every such `%XY` by the byte
`16 * value X + value Y`, and every other byte copied; in particular `url_decode "+" = " "`,
`url_decode "%25" = "%"` and `url_decode "%2f" = url_decode "%2F" = "/"`. -/
theorem url_decode_eq_spec (s : Bytes) (h : escapes_well_formed s = true) :
    url_decode s = Outcome.returned (url_decode_spec s) ∧
      url_decode (ascii "+") = Outcome.returned (ascii " ") ∧
      url_decode (ascii "%25") = Outcome.returned (ascii "%") ∧
      url_decode (ascii "%2f") = Outcome.returned (ascii "/") ∧
      url_decode (ascii "%2F") = Outcome.returned (ascii "/") := by
  refine ⟨?_, by decide, by decide, by decide, by decide⟩
  rw [url_decode_eq, decode_suffix_well_formed s.length s (le_refl _) h]
  rfl

theorem url_decode_eq_spec_witness :
    escapes_well_formed (ascii "a+b%3d%3Dc%25") = true ∧
      url_decode (ascii "a+b%3d%3Dc%25") = Outcome.returned (ascii "a b==c%") :=
  ⟨by decide, (url_decode_eq_spec (ascii "a+b%3d%3Dc%25") (by decide)).1⟩

theorem from_hex_percent : from_hex (37 % 256) = none := by decide

theorem decode_suffix_trailing_percent (n : Nat) : ∀ pre : Bytes, pre.length ≤ n → ∀ c : Nat,
    decode_suffix (pre ++ [37]) = none ∧ decode_suffix (pre ++ [37, c]) = none := by
  induction n with
  | zero =>
    intro pre hn c
    have : pre = [] := List.length_eq_zero.mp (by omega)
    subst this
    exact ⟨decode_suffix_percent_nil, decode_suffix_percent_one c⟩
  | succ n ih =>
    intro pre hn c
    cases pre with
    | nil => exact ⟨decode_suffix_percent_nil, decode_suffix_percent_one c⟩
    | cons p pre' =>
      have hlen : pre'.length ≤ n := by simpa using hn
      by_cases h43 : p = 43
      · subst h43
        simp only [List.cons_append, decode_suffix_plus, (ih pre' hlen c).1, (ih pre' hlen c).2,
          Option.map_none', and_self]
      · by_cases h37 : p = 37
        · subst h37
          rcases pre' with _ | ⟨x, _ | ⟨y, r⟩⟩
          · refine ⟨decode_suffix_percent_one 37, ?_⟩
            simp only [List.cons_append, List.nil_append, decode_suffix_percent, from_hex_percent]
          · constructor
            · simp only [List.cons_append, List.nil_append, decode_suffix_percent,
                from_hex_percent]
              split <;> simp_all
            · simp only [List.cons_append, List.nil_append, decode_suffix_percent,
                from_hex_percent]
              split <;> simp_all
          · have hr : r.length ≤ n := by simp at hlen; omega
            simp only [List.cons_append, decode_suffix_percent, (ih r hr c).1, (ih r hr c).2,
              Option.map_none']
            constructor <;> split <;> rfl
        · simp only [List.cons_append, decode_suffix_plain p _ h43 h37, (ih pre' hlen c).1,
            (ih pre' hlen c).2, Option.map_none', and_self]

/-- C4: for every string whose last or second-to-last character is `%` (a `%` with fewer than
two characters after it, such as `"abc%"` or `"abc%2"`), `url_decode` does not return a string:
the call ends in the assertion failure. -/
theorem url_decode_trailing_percent (pre : Bytes) (c : Nat) :
    url_decode (pre ++ [37]) = Outcome.assertion_failed ∧
      url_decode (pre ++ [37, c]) = Outcome.assertion_failed ∧
      url_decode (ascii "abc%") = Outcome.assertion_failed ∧
      url_decode (ascii "abc%2") = Outcome.assertion_failed := by
  refine ⟨?_, ?_, by decide, by decide⟩
  · rw [url_decode_eq, (decode_suffix_trailing_percent pre.length pre (le_refl _) c).1]
    rfl
  · rw [url_decode_eq, (decode_suffix_trailing_percent pre.length pre (le_refl _) c).2]
    rfl

/-- C5: the code at the claim's own examples. `from_hex` takes every letter `A-Z` and `a-z`
for a digit, so `url_decode "%G1"` and `url_decode "%zz"` return a string (the bytes 1 and 83)
where the claim has them fail. -/
theorem url_decode_accepts_non_hex_letters :
    url_decode (ascii "%G1") = Outcome.returned [1] ∧
      url_decode (ascii "%zz") = Outcome.returned [83] ∧
      from_hex 71 = some 16 ∧ from_hex 122 = some 35 := by
  decide

/-! ## The buffer accumulator -/

theorem realloc_block_length (old : Option Bytes) (m : Nat) (junk : Nat → Nat) :
    (realloc_block old m junk).length = m := by
  simp [realloc_block]

theorem holds_length_le (buf : Buffer) (b : Bytes) (hb : buf.holds b) :
    b.length ≤ (buf.data.getD []).length := by
  have h := congrArg List.length hb.2
  simp only [List.length_take] at h
  omega

theorem realloc_block_take (buf : Buffer) (b : Bytes) (hb : buf.holds b) (m : Nat)
    (junk : Nat → Nat) (hm : b.length ≤ m) : (realloc_block buf.data m junk).take b.length = b := by
  have hle := holds_length_le buf b hb
  apply List.ext_getElem
  · simp [realloc_block, hm]
  · intro i h1 h2
    have hi : i < (buf.data.getD []).length := by omega
    have hbi : b[i] = (buf.data.getD [])[i] := by
      have : (List.take b.length (buf.data.getD []))[i]? = b[i]? := by rw [hb.2]
      rw [List.getElem?_take_of_lt h2, List.getElem?_eq_getElem hi, List.getElem?_eq_getElem h2] at this
      exact (Option.some.inj this).symm
    simp [realloc_block, List.getD_eq_getElem?_getD, List.getElem?_eq_getElem hi, hbi]

theorem set_last_zero (l : Bytes) (z : Nat) : (l ++ [z]).set l.length 0 = l ++ [0] := by
  induction l with
  | nil => rfl
  | cons a l ih => simp [ih]

/-- A successful `write_cb` on a buffer holding `b`: the buffer afterwards is exactly
`b ++ c` followed by the terminating zero byte. -/
theorem write_cb_holds (buf : Buffer) (b c : Bytes) (size nmemb : Nat) (junk : Nat → Nat)
    (hb : buf.holds b) (hc : c.length = size * nmemb)
    (hfit : b.length + c.length + 1 < size_t_range) :
    write_cb c size nmemb buf (some junk) =
      (size * nmemb, { data := some (b ++ c ++ [0]), size := b.length + c.length }) := by
  have hreal : (size * nmemb) % size_t_range = c.length := by
    rw [← hc]; exact Nat.mod_eq_of_lt (by omega)
  have hsz : buf.size = b.length := hb.1
  have hnew : (buf.size + c.length + 1) % size_t_range = b.length + c.length + 1 := by
    rw [hsz]; exact Nat.mod_eq_of_lt hfit
  have hsize' : (buf.size + c.length) % size_t_range = b.length + c.length := by
    rw [hsz]; exact Nat.mod_eq_of_lt (by omega)
  simp only [write_cb, hreal, hnew, hsize']
  have htake := realloc_block_take buf b hb (b.length + c.length + 1) junk (by omega)
  have hlen := realloc_block_length buf.data (b.length + c.length + 1) junk
  obtain ⟨z, hz⟩ : ∃ z, (realloc_block buf.data (b.length + c.length + 1) junk).drop
      (b.length + c.length) = [z] := by
    have hl : ((realloc_block buf.data (b.length + c.length + 1) junk).drop
        (b.length + c.length)).length = 1 := by
      rw [List.length_drop, hlen]; omega
    exact List.length_eq_one.mp hl
  have hcopy : memcpy_at (realloc_block buf.data (b.length + c.length + 1) junk) buf.size c
      c.length = (b ++ c) ++ [z] := by
    rw [memcpy_at, hsz, htake, hz, List.take_length]
  rw [hcopy]
  have hset := set_last_zero (b ++ c) z
  rw [List.length_append] at hset
  rw [hset, hc]

theorem holds_terminated (b : Bytes) :
    Buffer.holds { data := some (b ++ [0]), size := b.length } b := by
  simp [Buffer.holds]

theorem holds_empty : Buffer.holds { data := none, size := 0 } [] := by
  simp [Buffer.holds]

/-- The first delivery is handled by `write_cb`, the others follow on the buffer it leaves. -/
theorem run_callbacks_cons (d : Delivery) (ds : List Delivery) (buf : Buffer) :
    run_callbacks (d :: ds) buf =
      run_callbacks ds (write_cb d.data d.size d.nmemb buf d.alloc).2 := rfl

theorem run_callbacks_holds (ds : List Delivery) : ∀ (buf : Buffer) (b : Bytes), buf.holds b →
    ds ≠ [] →
    (∀ d ∈ ds, d.alloc.isSome = true ∧ d.data.length = d.size * d.nmemb) →
    b.length + (ds.map (fun d => d.data)).flatten.length + 1 < size_t_range →
    run_callbacks ds buf =
      { data := some (b ++ (ds.map (fun d => d.data)).flatten ++ [0]),
        size := b.length + (ds.map (fun d => d.data)).flatten.length } := by
  induction ds with
  | nil => intro buf b _ hne; exact absurd rfl hne
  | cons d ds ih =>
    intro buf b hb _ hall hfit
    have hd := hall d (by simp)
    obtain ⟨junk, hjunk⟩ := Option.isSome_iff_exists.mp hd.1
    simp only [List.map_cons, List.flatten_cons, List.length_append] at hfit
    have hstep := write_cb_holds buf b d.data d.size d.nmemb junk hb hd.2 (by omega)
    rw [run_callbacks_cons, hjunk, hstep]
    by_cases hds : ds = []
    · subst hds
      simp [run_callbacks]
    · have hnext := ih { data := some (b ++ d.data ++ [0]), size := b.length + d.data.length }
        (b ++ d.data) (by simpa using holds_terminated (b ++ d.data)) hds
        (fun d' hd' => hall d' (by simp [hd'])) (by simp only [List.length_append]; omega)
      simp only at hnext
      rw [hnext]
      simp [Nat.add_assoc]

/-- C10: for every buffer holding `n` bytes `b` and every chunk `c` of `size * nmemb` bytes, a
`write_cb` call whose allocation succeeds returns `size * nmemb` and leaves the buffer with
size `n + |c|`, first `n + |c|` bytes `b` followed by `c`, and a zero byte at index `n + |c|`;
hence after any sequence of successful appends from the empty buffer the contents are the
chunks concatenated in delivery order and the size is the sum of their lengths. (Sizes are
those of objects in a 64-bit address space: `n + |c| + 1 < 2 ^ 64`.) -/
theorem write_cb_appends (buf : Buffer) (b c : Bytes) (size nmemb : Nat) (junk : Nat → Nat)
    (hb : buf.holds b) (hc : c.length = size * nmemb)
    (hfit : b.length + c.length + 1 < size_t_range) :
    (write_cb c size nmemb buf (some junk)).1 = size * nmemb ∧
      (write_cb c size nmemb buf (some junk)).2.size = b.length + c.length ∧
      ((write_cb c size nmemb buf (some junk)).2.data.getD []).take (b.length + c.length) =
        b ++ c ∧
      ((write_cb c size nmemb buf (some junk)).2.data.getD [])[b.length + c.length]? = some 0 ∧
      ∀ ds : List Delivery,
        (∀ d ∈ ds, d.alloc.isSome = true ∧ d.data.length = d.size * d.nmemb) →
        (ds.map (fun d => d.data)).flatten.length + 1 < size_t_range →
        (run_callbacks ds { data := none, size := 0 }).holds (ds.map (fun d => d.data)).flatten ∧
          (run_callbacks ds { data := none, size := 0 }).size =
            (ds.map (fun d => d.data.length)).sum := by
  rw [write_cb_holds buf b c size nmemb junk hb hc hfit]
  refine ⟨rfl, rfl, ?_, ?_, ?_⟩
  · have : b.length + c.length = (b ++ c).length := by simp
    simp only [Option.getD_some]
    rw [this, List.take_left']
    rfl
  · have : b.length + c.length = (b ++ c).length := by simp
    simp only [Option.getD_some]
    rw [this, List.getElem?_append_right (le_refl _)]
    simp
  · intro ds hall hfit'
    have hsum : (ds.map (fun d => d.data)).flatten.length =
        (ds.map (fun d => d.data.length)).sum := by
      simp [List.length_flatten, List.map_map, Function.comp_def]
    by_cases hds : ds = []
    · subst hds
      exact ⟨holds_empty, rfl⟩
    · have hrun := run_callbacks_holds ds { data := none, size := 0 } [] holds_empty hds hall
        (by simpa using hfit')
      rw [hrun]
      simp only [List.nil_append, List.length_nil, Nat.zero_add]
      exact ⟨holds_terminated _, hsum⟩

theorem write_cb_appends_witness :
    Buffer.holds { data := some (ascii "hel" ++ [0]), size := 3 } (ascii "hel") ∧
      (write_cb (ascii "lo") 1 2 { data := some (ascii "hel" ++ [0]), size := 3 }
        (some (fun _ => 7))).1 = 1 * 2 ∧
      ((write_cb (ascii "lo") 1 2 { data := some (ascii "hel" ++ [0]), size := 3 }
        (some (fun _ => 7))).2.data.getD []).take 5 = ascii "hello" ∧
      (run_callbacks [Delivery.of_bytes (ascii "hel"), Delivery.of_bytes (ascii "lo")]
        { data := none, size := 0 }).holds (ascii "hello") :=
  have h := write_cb_appends { data := some (ascii "hel" ++ [0]), size := 3 } (ascii "hel")
    (ascii "lo") 1 2 (fun _ => 7) (by decide) (by decide) (by decide)
  ⟨by decide, h.1, h.2.2.1,
    (h.2.2.2.2 [Delivery.of_bytes (ascii "hel"), Delivery.of_bytes (ascii "lo")] (by decide)
      (by decide)).1⟩

/-! ## `get` -/

theorem c_str_append_zero (l : Bytes) : c_str (l ++ [0]) = c_str l := by
  induction l with
  | nil => rfl
  | cons a l ih =>
    unfold c_str at ih ⊢
    by_cases ha : a = 0
    · subst ha; rfl
    · simp [List.takeWhile_cons, ha, ih]

theorem c_str_of_no_zero (l : Bytes) (h : 0 ∉ l) : c_str l = l := by
  induction l with
  | nil => rfl
  | cons a l ih =>
    have ha : a ≠ 0 := fun h0 => h (by simp [h0])
    have hl : 0 ∉ l := fun h0 => h (by simp [h0])
    have := ih hl
    unfold c_str at this ⊢
    simp [List.takeWhile_cons, ha, this]

theorem get_of_init_ok (e : Engine) (url : Bytes) (headers : List (Bytes × Bytes))
    (cookie : Bytes) (h : e.init_ok = true) :
    (get e url headers cookie).1.content =
      match (run_callbacks e.deliveries { data := none, size := 0 }).data with
      | some block => c_str block
      | none => [] := by
  simp only [get, h, Bool.true_eq_false, if_false]
  split <;> split <;> simp_all [Response.init]

/-- When every allocation succeeds, the content `get` returns is the concatenation of the
delivered chunks as a C string: its bytes up to the first zero byte. -/
theorem get_content_c_str (e : Engine) (url : Bytes) (headers : List (Bytes × Bytes))
    (cookie : Bytes) (hinit : e.init_ok = true)
    (hall : ∀ d ∈ e.deliveries, d.alloc.isSome = true ∧ d.data.length = d.size * d.nmemb)
    (hfit : (e.deliveries.map (fun d => d.data)).flatten.length + 1 < size_t_range) :
    (get e url headers cookie).1.content =
      c_str (e.deliveries.map (fun d => d.data)).flatten := by
  rw [get_of_init_ok e url headers cookie hinit]
  by_cases hds : e.deliveries = []
  · rw [hds]; rfl
  · rw [run_callbacks_holds e.deliveries { data := none, size := 0 } [] holds_empty hds hall
      (by simpa using hfit)]
    simp only [List.nil_append]
    exact c_str_append_zero _

/-- C6: the code at a body with a zero byte in it. The engine delivers the single chunk
`a\0b` (three bytes, allocation succeeding); three bytes are accumulated, and the content
`get` returns is the one byte `a`, not the chunk: `string(chunk.data)` stops at the zero. -/
theorem get_content_stops_at_zero_byte :
    (run_callbacks (Engine.success [[97, 0, 98]]).deliveries { data := none, size := 0 }) =
        { data := some [97, 0, 98, 0], size := 3 } ∧
      (get (Engine.success [[97, 0, 98]]) (ascii "http://host/") [] []).1.content = [97] ∧
      (get (Engine.success [ascii "hello"]) (ascii "http://host/") [] []).1.content =
        ascii "hello" := by
  decide

theorem header_lines_foldl (headers : List (Bytes × Bytes)) : ∀ acc : List Bytes,
    headers.foldl
        (fun headers_ls iter => curl_slist_append headers_ls (iter.1 ++ ascii ":" ++ iter.2)) acc =
      acc ++ headers.map (fun p => c_str (p.1 ++ ascii ":" ++ p.2)) := by
  induction headers with
  | nil => intro acc; simp
  | cons p headers ih =>
    intro acc
    rw [List.foldl_cons, ih, curl_slist_append, List.map_cons, List.append_assoc]
    rfl

theorem header_lines_eq_map (headers : List (Bytes × Bytes)) :
    header_lines headers = headers.map (fun p => c_str (p.1 ++ ascii ":" ++ p.2)) := by
  rw [header_lines, header_lines_foldl, List.nil_append]

/-- C7, as stated, fails: the entry with name `a\0b` and value `1` does not give the line
`a\0b:1`; the line handed over is `a`. -/
theorem header_lines_zero_byte_counterexample :
    header_lines [([97, 0, 98], ascii "1")] = [ascii "a"] ∧
      header_lines [([97, 0, 98], ascii "1")] ≠ [[97, 0, 98] ++ ascii ":" ++ ascii "1"] := by
  decide

/-- C7, amended: for every header mapping whose names and values hold no zero byte, the line
list handed to the engine has one line per entry, the line of an entry is its name, `:` and
its value with nothing added, and the lines are in the mapping's iteration order; that list
is handed over once, and `{"X-Test": "1"}` gives `["X-Test:1"]`. -/
theorem header_lines_eq (e : Engine) (url : Bytes) (headers : List (Bytes × Bytes))
    (cookie : Bytes) (hinit : e.init_ok = true)
    (hzero : ∀ p ∈ headers, 0 ∉ p.1 ∧ 0 ∉ p.2) :
    header_lines headers = headers.map (fun p => p.1 ++ ascii ":" ++ p.2) ∧
      (header_lines headers).length = headers.length ∧
      (get e url headers cookie).2.count
        (EngineCall.setopt_httpheader (headers.map (fun p => p.1 ++ ascii ":" ++ p.2))) = 1 ∧
      (∀ lines, EngineCall.setopt_httpheader lines ∈ (get e url headers cookie).2 →
        lines = headers.map (fun p => p.1 ++ ascii ":" ++ p.2)) ∧
      header_lines [(ascii "X-Test", ascii "1")] = [ascii "X-Test:1"] := by
  have hmap : header_lines headers = headers.map (fun p => p.1 ++ ascii ":" ++ p.2) := by
    rw [header_lines_eq_map]
    apply List.map_congr_left
    intro p hp
    apply c_str_of_no_zero
    have := hzero p hp
    simp only [List.mem_append, not_or]
    exact ⟨⟨this.1, by decide⟩, this.2⟩
  refine ⟨hmap, by rw [hmap, List.length_map], ?_, ?_, by decide⟩
  · simp only [get, hinit, Bool.true_eq_false, if_false, hmap]
    split <;> simp [List.count_cons]
  · intro lines hmem
    simp only [get, hinit, Bool.true_eq_false, if_false, hmap] at hmem
    split at hmem <;> simp at hmem <;> simpa using hmem

theorem header_lines_eq_witness :
    (∀ p ∈ [(ascii "Accept", ascii "*/*"), (ascii "X-Test", ascii "1")], 0 ∉ p.1 ∧ 0 ∉ p.2) ∧
      header_lines [(ascii "Accept", ascii "*/*"), (ascii "X-Test", ascii "1")] =
        [ascii "Accept:*/*", ascii "X-Test:1"] :=
  ⟨by decide,
    (header_lines_eq (Engine.success []) (ascii "http://host/")
      [(ascii "Accept", ascii "*/*"), (ascii "X-Test", ascii "1")] [] rfl (by decide)).1⟩

/-- C8: for every call of `get`, whatever the engine does, the returned reason is non-empty
only if an error occurred (no handle, or `perform` returned a code other than OK); when the
handle is there and `perform` returns OK, the reason is the empty string. -/
theorem get_reason_only_on_error (e : Engine) (url : Bytes) (headers : List (Bytes × Bytes))
    (cookie : Bytes) :
    ((get e url headers cookie).1.reason ≠ [] → e.init_ok = false ∨ e.code ≠ 0) ∧
      (e.init_ok = true → e.code = 0 → (get e url headers cookie).1.reason = []) := by
  have key : e.init_ok = true → e.code = 0 → (get e url headers cookie).1.reason = [] := by
    intro hinit hcode
    simp only [get, hinit, Bool.true_eq_false, if_false, hcode]
    split <;> simp [Response.init]
  refine ⟨?_, key⟩
  intro hne
  by_contra hcon
  simp only [not_or, Bool.not_eq_false, not_not] at hcon
  exact hne (key hcon.1 hcon.2)

theorem get_reason_only_on_error_witness :
    (get (Engine.success [ascii "hello"]) (ascii "http://host/") [] []).1.reason = [] :=
  (get_reason_only_on_error (Engine.success [ascii "hello"]) (ascii "http://host/") [] []).2
    rfl rfl

/-- C9, as stated, fails: without a handle the reason is not the text
`failed to initialize transfer context`. -/
theorem get_no_handle_reason_counterexample :
    (get Engine.no_handle (ascii "http://host/") [] []).1.reason ≠
      ascii "failed to initialize transfer context" := by
  decide

/-- C9, amended: when the transfer context cannot be initialised, `get` returns, without
configuring or performing any transfer (no call is made on the engine), a response whose
status code is -1, whose reason is `failed initialize curl.`, whose content is empty and
whose elapsed time is 0. -/
theorem get_no_handle (e : Engine) (url : Bytes) (headers : List (Bytes × Bytes))
    (cookie : Bytes) (h : e.init_ok = false) :
    get e url headers cookie =
      ({ url := url, status_code := -1, reason := ascii "failed initialize curl.",
         content := [], elapsed := 0 }, []) := by
  simp [get, h, Response.init]

theorem get_no_handle_witness :
    Engine.no_handle.init_ok = false ∧
      get Engine.no_handle (ascii "http://host/") [(ascii "X-Test", ascii "1")] (ascii "k=v") =
        ({ url := ascii "http://host/", status_code := -1,
           reason := ascii "failed initialize curl.", content := [], elapsed := 0 }, []) :=
  ⟨rfl, get_no_handle Engine.no_handle _ _ _ rfl⟩

/-! ## The round trip on arbitrary bytes -/

set_option maxRecDepth 100000 in
theorem url_encode_step_cases : ∀ b < 256,
    (url_encode_step [] b = [b] ∧ b ≠ 43 ∧ b ≠ 37) ∨
      (url_encode_step [] b = [43] ∧ b = 32) ∨
      (url_encode_step [] b = [37, to_hex (b / 16), to_hex (b % 16)] ∧
        from_hex (to_hex (b / 16) % 256) = some (b / 16) ∧
        from_hex (to_hex (b % 16) % 256) = some (b % 16)) := by
  decide

theorem decode_suffix_url_encode_step (b : Nat) (hb : b < 256) (rest : Bytes) :
    decode_suffix (url_encode_step [] b ++ rest) = (decode_suffix rest).map (fun r => b :: r) := by
  rcases url_encode_step_cases b hb with ⟨h, h43, h37⟩ | ⟨h, h32⟩ | ⟨h, hhi, hlo⟩
  · rw [h, List.singleton_append, decode_suffix_plain b rest h43 h37]
  · rw [h, h32, List.singleton_append, decode_suffix_plus]
  · have hval : (b / 16 * 16 + b % 16) % 256 = b := by omega
    rw [h]
    simp only [List.cons_append, List.nil_append, decode_suffix_percent, hhi, hlo, hval]

theorem decode_suffix_url_encode (s : Bytes) (hs : ∀ b ∈ s, b < 256) :
    decode_suffix (s.flatMap (url_encode_step [])) = some s := by
  induction s with
  | nil => rfl
  | cons b s ih =>
    rw [List.flatMap_cons, decode_suffix_url_encode_step b (hs b (by simp)),
      ih (fun d hd => hs d (by simp [hd]))]
    rfl

theorem url_decode_url_encode_bytes (s : Bytes) (hs : ∀ b ∈ s, b < 256) :
    url_decode (url_encode s) = Outcome.returned s := by
  rw [url_encode_eq_flatMap, url_decode_eq, decode_suffix_url_encode s hs]
  rfl

theorem url_encode_injective_bytes (s t : Bytes) (hs : ∀ b ∈ s, b < 256)
    (ht : ∀ b ∈ t, b < 256) (h : url_encode s = url_encode t) : s = t := by
  have h1 := url_decode_url_encode_bytes s hs
  rw [h, url_decode_url_encode_bytes t ht] at h1
  exact (Outcome.returned.inj h1).symm

/-- C11: for every byte string `s` whatsoever (with `+`, `%`, spaces, control bytes, bytes from
128 on), `url_decode (url_encode s)` reaches no assertion failure and returns exactly `s`;
consequently `url_encode` is injective. -/
theorem url_decode_url_encode (s : Bytes) (hs : ∀ b ∈ s, b < 256) :
    url_decode (url_encode s) = Outcome.returned s ∧
      ∀ t : Bytes, (∀ b ∈ t, b < 256) → url_encode s = url_encode t → s = t :=
  ⟨url_decode_url_encode_bytes s hs, fun t ht h => url_encode_injective_bytes s t hs ht h⟩

theorem url_decode_url_encode_witness :
    (∀ b ∈ [43, 37, 32, 0, 10, 128, 255, 97, 37, 52, 49], b < 256) ∧
      url_decode (url_encode [43, 37, 32, 0, 10, 128, 255, 97, 37, 52, 49]) =
        Outcome.returned [43, 37, 32, 0, 10, 128, 255, 97, 37, 52, 49] :=
  ⟨by decide, (url_decode_url_encode [43, 37, 32, 0, 10, 128, 255, 97, 37, 52, 49]
    (by decide)).1⟩

/-! ## Encoding twice -/

theorem url_encode_step_length_pos (c : Nat) : 1 ≤ (url_encode_step [] c).length := by
  unfold url_encode_step
  split_ifs <;> simp

theorem flatMap_url_encode_step_length (t : Bytes) :
    t.length ≤ (t.flatMap (url_encode_step [])).length := by
  induction t with
  | nil => simp
  | cons c t ih =>
    have := url_encode_step_length_pos c
    simp only [List.flatMap_cons, List.length_append, List.length_cons]
    omega

theorem url_encode_fixed_keeps (t : Bytes) :
    t.flatMap (url_encode_step []) = t → ∀ c ∈ t, url_encode_keeps c = true := by
  induction t with
  | nil => intro _ c hc; simp at hc
  | cons a t ih =>
    intro h
    have hlen := flatMap_url_encode_step_length t
    rw [List.flatMap_cons] at h
    by_cases hk : url_encode_keeps a = true
    · have hstep : url_encode_step [] a = [a] := by simp [url_encode_step, hk]
      rw [hstep, List.singleton_append] at h
      have ht := ih (List.cons.inj h).2
      intro c hc
      rcases List.mem_cons.mp hc with rfl | hc'
      · exact hk
      · exact ht c hc'
    · exfalso
      by_cases h32 : a = 32
      · have hstep : url_encode_step [] a = [43] := by subst h32; decide
        rw [hstep, List.singleton_append] at h
        have := (List.cons.inj h).1
        omega
      · have hstep : url_encode_step [] a =
            [37, to_hex ((a % 256) >>> 4), to_hex ((a % 256) % 16)] := by
          simp [url_encode_step, hk, h32]
        rw [hstep] at h
        have hl := congrArg List.length h
        simp only [List.cons_append, List.nil_append, List.length_cons] at hl
        omega

set_option maxRecDepth 100000 in
theorem url_encode_step_bytes : ∀ b < 256, ∀ x ∈ url_encode_step [] b, x < 256 ∧ x ≠ 0 := by
  decide

set_option maxRecDepth 100000 in
theorem url_encode_keeps_eq_is_unreserved :
    ∀ b < 256, url_encode_keeps b = is_unreserved b := by
  decide

theorem url_encode_bytes (s : Bytes) (hs : ∀ b ∈ s, b < 256) :
    ∀ x ∈ url_encode s, x < 256 ∧ x ≠ 0 := by
  intro x hx
  rw [url_encode_eq_flatMap, List.mem_flatMap] at hx
  obtain ⟨b, hb, hxb⟩ := hx
  exact url_encode_step_bytes b (hs b hb) x hxb

theorem url_encode_twice_iff (s : Bytes) (hs : ∀ b ∈ s, b < 256) :
    url_encode (url_encode s) = url_encode s ↔ ∀ c ∈ s, is_unreserved c = true := by
  constructor
  · intro h
    have hfix : url_encode s = s :=
      url_encode_injective_bytes (url_encode s) s
        (fun b hb => (url_encode_bytes s hs b hb).1) hs h
    rw [url_encode_eq_flatMap] at hfix
    intro c hc
    rw [← url_encode_keeps_eq_is_unreserved c (hs c hc)]
    exact url_encode_fixed_keeps s hfix c hc
  · intro h
    have hfix : url_encode s = s := by
      rw [url_encode_eq_flatMap, flatMap_url_encode_step_unreserved s h]
    rw [hfix, hfix]

theorem get_setopt_url (e : Engine) (url : Bytes) (headers : List (Bytes × Bytes))
    (cookie : Bytes) (hinit : e.init_ok = true) (hurl : ∀ b ∈ url, b < 256) :
    (get e url headers cookie).2.head? = some (EngineCall.setopt_url (url_encode url)) := by
  have hz : c_str (url_encode url) = url_encode url :=
    c_str_of_no_zero _ (fun h0 => (url_encode_bytes url hurl 0 h0).2 rfl)
  simp [get, hinit, hz]

/-- C12: `url_encode` is idempotent exactly on the strings it leaves unchanged: for every byte
string `s`, `url_encode (url_encode s) = url_encode s` if and only if every byte of `s` is a
pass-through character; a string with a space or an escaped character is changed again by a
second encoding (`"a b"` to `"a+b"` to `"a%2Bb"`, `"%41"` to `"%2541"`), and this encoding is
what `get` applies to the URL it is given, escaped already or not. -/
theorem url_encode_idempotent_iff (s : Bytes) (hs : ∀ b ∈ s, b < 256) :
    (url_encode (url_encode s) = url_encode s ↔ ∀ c ∈ s, is_unreserved c = true) ∧
      url_encode (ascii "a b") = ascii "a+b" ∧
      url_encode (ascii "a+b") = ascii "a%2Bb" ∧
      url_encode (ascii "%41") = ascii "%2541" ∧
      (∀ (e : Engine) (url : Bytes) (headers : List (Bytes × Bytes)) (cookie : Bytes),
        e.init_ok = true → (∀ b ∈ url, b < 256) →
        (get e url headers cookie).2.head? = some (EngineCall.setopt_url (url_encode url))) ∧
      (get (Engine.success []) (ascii "http://host/%41") [] []).2.head? =
        some (EngineCall.setopt_url (ascii "http://host/%2541")) :=
  ⟨url_encode_twice_iff s hs, by decide, by decide, by decide,
    fun e url headers cookie hinit hurl => get_setopt_url e url headers cookie hinit hurl,
    by decide⟩

theorem url_encode_idempotent_iff_witness :
    (∀ b ∈ ascii "a b", b < 256) ∧
      ¬ (∀ c ∈ ascii "a b", is_unreserved c = true) ∧
      url_encode (url_encode (ascii "a b")) ≠ url_encode (ascii "a b") :=
  ⟨by decide, by decide,
    fun h => absurd ((url_encode_idempotent_iff (ascii "a b") (by decide)).1.mp h) (by decide)⟩

/-! ## Allocation failure in `write_cb` -/

/-- C13: when the allocation inside `write_cb` fails, the call returns 0 and leaves the buffer
as it was: data and size are what they were before the call, so the bytes accumulated by
earlier appends are still there, also after a run of successful appends. -/
theorem write_cb_alloc_failure (data : Bytes) (size nmemb : Nat) (buf : Buffer) :
    write_cb data size nmemb buf none = (0, buf) ∧
      (∀ b : Bytes, buf.holds b → (write_cb data size nmemb buf none).2.holds b) ∧
      ∀ ds : List Delivery,
        (∀ d ∈ ds, d.alloc.isSome = true ∧ d.data.length = d.size * d.nmemb) →
        (ds.map (fun d => d.data)).flatten.length + 1 < size_t_range →
        run_callbacks (ds ++ [{ data := data, size := size, nmemb := nmemb, alloc := none }])
            { data := none, size := 0 } =
          run_callbacks ds { data := none, size := 0 } ∧
        (run_callbacks (ds ++ [{ data := data, size := size, nmemb := nmemb, alloc := none }])
            { data := none, size := 0 }).holds (ds.map (fun d => d.data)).flatten := by
  refine ⟨rfl, fun b hb => hb, ?_⟩
  intro ds hall hfit
  have hrun : run_callbacks
      (ds ++ [{ data := data, size := size, nmemb := nmemb, alloc := none }])
      { data := none, size := 0 } = run_callbacks ds { data := none, size := 0 } := by
    simp [run_callbacks, List.foldl_append, write_cb]
  refine ⟨hrun, ?_⟩
  rw [hrun]
  by_cases hds : ds = []
  · subst hds
    exact holds_empty
  · rw [run_callbacks_holds ds { data := none, size := 0 } [] holds_empty hds hall
      (by simpa using hfit)]
    simp only [List.nil_append, List.length_nil, Nat.zero_add]
    exact holds_terminated _

theorem write_cb_alloc_failure_witness :
    write_cb (ascii "lo") 1 2 { data := some (ascii "hel" ++ [0]), size := 3 } none =
        (0, { data := some (ascii "hel" ++ [0]), size := 3 }) ∧
      (run_callbacks [Delivery.of_bytes (ascii "hel"),
          { data := ascii "lo", size := 1, nmemb := 2, alloc := none }]
        { data := none, size := 0 }).holds (ascii "hel") :=
  have h := write_cb_alloc_failure (ascii "lo") 1 2 { data := some (ascii "hel" ++ [0]), size := 3 }
  ⟨h.1, ((write_cb_alloc_failure (ascii "lo") 1 2 { data := none, size := 0 }).2.2
    [Delivery.of_bytes (ascii "hel")] (by decide) (by decide)).2⟩

end requests
